import Mathlib

/-
  Verification of the character identification and coreference unification
  engine of the LLM-character-network repository, as a shallow embedding of
  src/features/char_id/character_identification.py and
  src/features/char_id/_gender_annotation.py.

  Python dictionaries are embedded as association lists in key insertion
  order; Python sets of names are embedded as duplicate-free lists; the
  spaCy document is embedded as its token list (and, for the pronoun pass,
  its sentence list).  Machine integers are Nat (Python ints do not
  overflow).  Fallible code returns Except.
-/

/-- The gender values written by the annotator, embedding the Python string
constants MALE, FEMALE and UNKNOWN.  A Character that has not been through
gender annotation yet holds none (Python: the gender attribute before
update_gender runs), embedded as Option Gender elsewhere. -/
inductive Gender where
  | MALE
  | FEMALE
  | UNKNOWN
deriving DecidableEq

/-- Parsed name components: title, first and last, each possibly empty,
mirroring the name_parsed attribute of the Character class. -/
structure NameParsed where
  title : String
  first : String
  last : String
deriving DecidableEq

/-- Modelled from the spec: the Character class (src.tools.character_entity)
is not under src/.  Per the spec data model (section 3) it holds the canonical
name, the ordered occurrence positions, the parsed name components and the
write-once gender, which is unset (none) until GenderAnnotator runs. -/
structure Character where
  name : String
  occurences : List Nat
  name_parsed : NameParsed
  gender : Option Gender
deriving DecidableEq

/-- Modelled from the spec: Character.update_gender writes the write-once
gender field (spec section 3: gender set exactly once by GenderAnnotator). -/
def update_gender (c : Character) (g : Gender) : Character :=
  { c with gender := some g }

/-- The state error message raised by annotate_gender and unify_occurences
when self.chars is None. -/
def state_error_msg : String :=
  "self.chars has not defined yet. Run detect_characters first."

/-- The per-name gender fusion of CharacterIdentification.annotate_gender
(lines 129-153): genders = [gender_t, gender_n]; size = 2 minus the number
of UNKNOWN entries; if size = 0 take the pronoun result; else if all the
specified genders are FEMALE take FEMALE; else if all are MALE take MALE;
otherwise take the pronoun result. -/
def fuseGender (gender_t gender_n gender_p : Gender) : Gender :=
  let genders := [gender_t, gender_n]
  let size := genders.length - genders.count Gender.UNKNOWN
  if size = 0 then gender_p
  else if genders.count Gender.FEMALE = size then Gender.FEMALE
  else if genders.count Gender.MALE = size then Gender.MALE
  else gender_p

/-- CharacterIdentification.annotate_gender (lines 96-154): raises the state
error when self.chars is None, otherwise writes the fused gender on every
entity of the store and returns it.  The three per-name estimator result
dictionaries are parameters. -/
def annotate_gender (name_genders_title name_genders_name name_genders_pronoun : String → Gender)
    (chars : Option (List (String × Character))) : Except String (List (String × Character)) :=
  match chars with
  | none => Except.error state_error_msg
  | some cs =>
      Except.ok (cs.map (fun p =>
        (p.1, update_gender p.2
          (fuseGender (name_genders_title p.1) (name_genders_name p.1) (name_genders_pronoun p.1)))))

/-- The final per-name decision of GenderAnnotation._annotate_gender_by_titiles
(lines 40-48) on the collected vote list: UNKNOWN on zero votes, else FEMALE
when the FEMALE count is at least half the total, else MALE when the MALE
count is at least half the total.  Python leaves the entry as the raw vote
list when no branch fires (unreachable for FEMALE/MALE-only vote lists);
that no-reassignment outcome is embedded as none. -/
def title_gender_decision (gender : List Gender) : Option Gender :=
  let size := gender.length
  if size = 0 then some Gender.UNKNOWN
  else if 2 * gender.count Gender.FEMALE ≥ size then some Gender.FEMALE
  else if 2 * gender.count Gender.MALE ≥ size then some Gender.MALE
  else none

/-- CharacterIdentification._gender_unmatch (lines 156-165): with
genders = [gender1, gender2], return False when at least one entry is
UNKNOWN, False when both are FEMALE or both are MALE, True otherwise.
The arguments are Option Gender because the stored gender attribute is
unset before annotation runs. -/
def gender_unmatch (gender1 gender2 : Option Gender) : Bool :=
  let genders := [gender1, gender2]
  if genders.count (some Gender.UNKNOWN) ≥ 1 then false
  else if genders.count (some Gender.FEMALE) = 2 ∨ genders.count (some Gender.MALE) = 2 then false
  else true

/-- The to_remove list built by unify_occurences (lines 196-211): for each
name and each of its candidate referents, append the pair when the genders
unmatch, and append it (again) when both parsed titles are non-empty and
differ.  The store lookup self.chars[...] is the chars parameter. -/
def constraint_to_remove (chars : String → Character)
    (same_chars : List (String × List String)) : List (String × String) :=
  same_chars.foldl (fun acc p =>
    p.2.foldl (fun a ref =>
      let a2 := if gender_unmatch (chars p.1).gender (chars ref).gender
                then a ++ [(p.1, ref)] else a
      let title1 := (chars p.1).name_parsed.title
      let title2 := (chars ref).name_parsed.title
      if (title1 ≠ "" ∧ title2 ≠ "") ∧ title1 ≠ title2
      then a2 ++ [(p.1, ref)] else a2) acc) []

/-- The discard loop of unify_occurences (lines 212-213): every pair put on
to_remove is discarded from the claimant's referent set. -/
def filter_referents (chars : String → Character)
    (same_chars : List (String × List String)) : List (String × List String) :=
  let to_remove := constraint_to_remove chars same_chars
  same_chars.map (fun p => (p.1, p.2.filter (fun ref => !(to_remove.contains (p.1, ref)))))

/-- The drop condition exactly as the spec states it (section 4.4), written
independently of the code for the refinement comparison: drop a (name,
referent) pair iff both genders are non-UNKNOWN and differ, or both parsed
titles are non-empty and differ. -/
def dropPairSpec (chars : String → Character) (name ref : String) : Bool :=
  decide (((chars name).gender ≠ some Gender.UNKNOWN ∧ (chars ref).gender ≠ some Gender.UNKNOWN ∧
            (chars name).gender ≠ (chars ref).gender) ∨
          ((chars name).name_parsed.title ≠ "" ∧ (chars ref).name_parsed.title ≠ "" ∧
            (chars name).name_parsed.title ≠ (chars ref).name_parsed.title))

/-- A Python defaultdict(list) append: if the key exists, append the value to
its list, otherwise create the key (at the end, dict insertion order) with a
one-element list. -/
def appendAssoc : List (String × List String) → String → String → List (String × List String)
  | [], k, v => [(k, [v])]
  | p :: m, k, v => if p.1 = k then (p.1, p.2 ++ [v]) :: m else p :: appendAssoc m k v

/-- Dictionary lookup returning the stored list ([] on a missing key). -/
def lookupVals : List (String × List String) → String → List String
  | [], _ => []
  | p :: m, k => if p.1 = k then p.2 else lookupVals m k

/-- The repeated_referents inversion of unify_occurences (lines 218-221):
for each name and each of its referents, append the name to the referent's
claimant list. -/
def invert_referents (same_chars : List (String × List String)) : List (String × List String) :=
  same_chars.foldl (fun acc p => p.2.foldl (fun a ref => appendAssoc a ref p.1) acc) []

/-- Lines 223-229: referents with at most one claimant are popped, keeping
exactly the referents claimed by two or more names. -/
def repeated_referents (same_chars : List (String × List String)) : List (String × List String) :=
  (invert_referents same_chars).filter (fun p => 1 < p.2.length)

/-- The claimant names of a referent: the names whose (filtered) referent
set contains it, in store order.  Used to state what the inversion computes. -/
def claimants_of (same_chars : List (String × List String)) (ref : String) : List String :=
  (same_chars.filter (fun p => p.2.contains ref)).map Prod.fst

/-- The first union loop of unify_occurences (lines 232-238): unite every
(name, referent) pair whose referent is not repeated, in iteration order. -/
def uncontested_unions (same_chars repeated : List (String × List String)) :
    List (String × String) :=
  same_chars.foldl (fun acc p =>
    p.2.foldl (fun a ref =>
      if repeated.any (fun q => q.1 == ref) then a else a ++ [(p.1, ref)]) acc) []

/-- One iteration of the most-frequent-claimant loop of unify_occurences
(lines 245-249): occ = len(self.chars[name].occurences); the running
(max_name, max_occurences) pair is replaced only when occ strictly exceeds
max_occurences. -/
def maxStep (chars : String → Character) (acc : String × Nat) (name : String) : String × Nat :=
  let occ := (chars name).occurences.length
  if occ > acc.2 then (name, occ) else acc

/-- The most-frequent-claimant loop of unify_occurences (lines 242-249 and
again 289-296): max_name starts at the first name with max_occurences 0, and
the loop runs over the whole name list. -/
def maxFreqName (chars : String → Character) : List String → String
  | [] => ""
  | n :: ns => ((n :: ns).foldl (maxStep chars) (n, 0)).1

/-- The second union loop of unify_occurences (lines 241-250): each repeated
referent is united with the single most frequent claimant. -/
def contested_unions (chars : String → Character)
    (repeated : List (String × List String)) : List (String × String) :=
  repeated.map (fun p => (p.1, maxFreqName chars p.2))

/-- All unions emitted by the repeated-referent resolution phase of
unify_occurences (lines 218-250), in emission order. -/
def resolver_unions (chars : String → Character)
    (same_chars : List (String × List String)) : List (String × String) :=
  uncontested_unions same_chars (repeated_referents same_chars)
    ++ contested_unions chars (repeated_referents same_chars)

/-- The ordered pairs enumerated by the cross-name loop of unify_occurences
(lines 258-266): char1 ranges over charlist[:-1] with index i, char2 over
charlist[i+1:].  (For the final element the inner list is empty, so
including it changes nothing.) -/
def crossPairs : List String → List (String × String)
  | [] => []
  | c1 :: rest => rest.map (fun c2 => (c1, c2)) ++ crossPairs rest

/-- The per-pair test of the cross-name loop (lines 259-281): skip when
either parsed name has two or more empty components, when the stored genders
differ as values, or when both titles are non-empty and differ; otherwise
record the pair when the first names are equal or the last names are equal. -/
def corr_ok (chars : String → Character) (char1 char2 : String) : Bool :=
  let p1 := (chars char1).name_parsed
  let p2 := (chars char2).name_parsed
  if [p1.first, p1.last, p1.title].count "" ≥ 2 then false
  else if [p2.first, p2.last, p2.title].count "" ≥ 2 then false
  else if (chars char1).gender ≠ (chars char2).gender then false
  else if (p1.title ≠ "" ∧ p2.title ≠ "") ∧ p1.title ≠ p2.title then false
  else decide (p1.first = p2.first ∨ p1.last = p2.last)

/-- The correnspondence dictionary built by unify_occurences (lines 256-283):
for each enumerated pair passing the test, append char2 to char1's list and
char1 to char2's list. -/
def build_correspondence (chars : String → Character) (charlist : List String) :
    List (String × List String) :=
  (crossPairs charlist).foldl (fun corr pr =>
    if corr_ok chars pr.1 pr.2 then appendAssoc (appendAssoc corr pr.1 pr.2) pr.2 pr.1
    else corr) []

/-- The final union loop of unify_occurences (lines 288-297): each name with
correspondences is united with its single most frequent correspondent. -/
def correspondence_unions (chars : String → Character)
    (corr : List (String × List String)) : List (String × String) :=
  corr.map (fun p => (p.1, maxFreqName chars p.2))

/-- The pairs the constraint filter contributes to to_remove for one (name,
referent) candidate: one copy per violated constraint.  Used to state what
constraint_to_remove computes. -/
def pair_removals (chars : String → Character) (name ref : String) : List (String × String) :=
  (if gender_unmatch (chars name).gender (chars ref).gender then [(name, ref)] else []) ++
  (if ((chars name).name_parsed.title ≠ "" ∧ (chars ref).name_parsed.title ≠ "") ∧
      (chars name).name_parsed.title ≠ (chars ref).name_parsed.title then [(name, ref)] else [])

/-- The cross-name recording condition as the spec states it (section 4.7),
written independently of the code for the refinement comparison: neither
name has two or more empty fields among title, first and last, the genders
are equal as values, it is not the case that both titles are non-empty and
differ, and the first names or the last names are equal. -/
def crossPairSpec (chars : String → Character) (c1 c2 : String) : Bool :=
  let q1 := (chars c1).name_parsed
  let q2 := (chars c2).name_parsed
  decide ([q1.title, q1.first, q1.last].count "" < 2
    ∧ [q2.title, q2.first, q2.last].count "" < 2
    ∧ (chars c1).gender = (chars c2).gender
    ∧ ¬(q1.title ≠ "" ∧ q2.title ≠ "" ∧ q1.title ≠ q2.title)
    ∧ (q1.first = q2.first ∨ q1.last = q2.last))

/-- Modelled from the spec: the unionfind CharacterGrouping class
(src.tools.character_grouping) is not under src/.  Per the spec (section
4.6) it keeps a partition of the name set, one singleton per name at
construction, and unite merges the groups containing its two arguments. -/
def cg_unite (groups : List (List String)) (a b : String) : List (List String) :=
  match groups.find? (fun g => g.contains a), groups.find? (fun g => g.contains b) with
  | some ga, some gb =>
      if ga = gb then groups
      else (ga ++ gb) :: groups.filter (fun g => !(g == ga) && !(g == gb))
  | _, _ => groups

/-- Store lookup self.chars[name] as a total function; Python raises KeyError
(the spec's InvariantViolation, section 7) on a missing name, embedded here
as a default empty entity. -/
def lookup_char (cs : List (String × Character)) (n : String) : Character :=
  ((cs.find? (fun p => p.1 == n)).map Prod.snd).getD
    { name := n, occurences := [], name_parsed := { title := "", first := "", last := "" },
      gender := none }

/-- CharacterIdentification.unify_occurences (lines 167-299): raises the
state error when self.chars is None; otherwise intersects each referent set
(produced by the external OccurenceUnification.unify_referents, a parameter
here) with the stored names, applies the constraint filter, performs the
uncontested and contested resolver unions and then the cross-name
correspondence unions on the union-find structure, and returns its groups. -/
def unify_occurences (referents : List (String × List String))
    (chars : Option (List (String × Character))) : Except String (List (List String)) :=
  match chars with
  | none => Except.error state_error_msg
  | some cs =>
      let charsF := lookup_char cs
      let chars_all := cs.map Prod.fst
      let same_chars0 := referents.map (fun p => (p.1, p.2.filter (fun r => chars_all.contains r)))
      let same_chars := filter_referents charsF same_chars0
      let unions1 := resolver_unions charsF same_chars
      let corr := build_correspondence charsF chars_all
      let unions2 := correspondence_unions charsF corr
      let start := chars_all.map (fun n => [n])
      let after1 := unions1.foldl (fun g pr => cg_unite g pr.1 pr.2) start
      let after2 := unions2.foldl (fun g pr => cg_unite g pr.1 pr.2) after1
      Except.ok after2

/-- Split a string on spaces into non-empty tokens (auxiliary, structural on
the character list so that concrete evaluation reduces in the kernel). -/
def splitTokensAux : List Char → List Char → List String
  | [], cur => if cur.isEmpty then [] else [String.mk cur]
  | c :: cs, cur =>
      if c = ' ' then (if cur.isEmpty then [] else [String.mk cur]) ++ splitTokensAux cs []
      else splitTokensAux cs (cur ++ [c])

/-- Split a string on spaces into non-empty tokens. -/
def splitTokens (s : String) : List String := splitTokensAux s.data []

/-- Lowercase a string (structural embedding of str.lower). -/
def lowerStr (s : String) : String := String.mk (s.data.map Char.toLower)

/-- Remove every occurrence of a character (structural embedding of
str.replace with an empty replacement). -/
def removeChar (c : Char) (s : String) : String := String.mk (s.data.filter (fun d => d ≠ c))

/-- Modelled from the spec: the NameParser (section 4.1) lives in the
Character class, not under src/.  Title recognized from the configured
honorific set, case-insensitive, with or without trailing period; first =
first remaining token, last = last remaining token, empty if only one token
remains. -/
def parse_name (titles : List String) (name : String) : NameParsed :=
  match splitTokens name with
  | [] => { title := "", first := "", last := "" }
  | t :: rest =>
      let isTitle := titles.any (fun x => lowerStr (removeChar '.' x) == lowerStr (removeChar '.' t))
      let rem := if isTitle then rest else t :: rest
      let tl := if isTitle then t else ""
      match rem with
      | [] => { title := tl, first := "", last := "" }
      | [f] => { title := tl, first := f, last := "" }
      | f :: g :: more => { title := tl, first := f, last := (g :: more).getLastD g }

/-- A spaCy entity span: its label, its text and its start token index. -/
structure Span where
  label : String
  text : String
  start : Nat
deriving DecidableEq

/-- The canonical dictionary key computed by detect_characters (lines 71-82):
when the span does not start at token 0 (Python: ent.start - 1 >= 0 over
ints) and the preceding token with periods removed is in the title set, the
key is the preceding token, a space and the entity text; otherwise the
entity text. -/
def canonical_name (doc : List String) (titles : List String) (ent : Span) : String :=
  if 1 ≤ ent.start then
    let title := doc.getD (ent.start - 1) ""
    let title_w_o_period := removeChar '.' title
    if titles.contains title_w_o_period then title ++ " " ++ ent.text else ent.text
  else ent.text

/-- Modelled from the spec: Character.append_occurences appends one token
position to the ordered occurrence sequence (spec section 3). -/
def append_occurences (c : Character) (idx : Nat) : Character :=
  { c with occurences := c.occurences ++ [idx] }

/-- Modelled from the spec: the Character constructor Character(name)
creates an entity with no occurrences yet, its parsed name and an unset
gender (spec section 3 lifecycle). -/
def fresh_character (titles : List String) (name : String) : Character :=
  { name := name, occurences := [], name_parsed := parse_name titles name, gender := none }

/-- One sighting in detect_characters (lines 86-89): create the entry if the
name is not yet a key, then append the start index to that entry. -/
def add_sighting (chars : List (String × Character)) (titles : List String)
    (name : String) (idx : Nat) : List (String × Character) :=
  let chars2 :=
    if chars.any (fun p => p.1 == name) then chars
    else chars ++ [(name, fresh_character titles name)]
  chars2.map (fun p => if p.1 == name then (p.1, append_occurences p.2 idx) else p)

/-- CharacterIdentification.detect_characters (lines 53-91) over the
document token list, the configured title set and the entity spans: every
PERSON span is recorded under its canonical key. -/
def detect_characters (doc : List String) (titles : List String) (ents : List Span) :
    List (String × Character) :=
  ents.foldl (fun chars ent =>
    if ent.label == "PERSON" then add_sighting chars titles (canonical_name doc titles ent) ent.start
    else chars) []

/-- The male pronoun vocabulary of GenderAnnotation (lines 162-164). -/
def male_pronoun_list : List String := ["he", "his", "him", "himself"]

/-- The female pronoun vocabulary of GenderAnnotation (lines 165-167). -/
def female_pronoun_list : List String := ["she", "her", "hers", "herself"]

/-- GenderAnnotation._match_pronouns (lines 156-177): the tokens of a
sentence whose lowercase form is one of the pronoun vocabulary words, in
order. -/
def match_pronouns (sent : List String) : List String :=
  sent.filter (fun t =>
    male_pronoun_list.contains (lowerStr t) || female_pronoun_list.contains (lowerStr t))

/-- The inner while loop of GenderAnnotation._find_pronouns (lines 141-145):
while the current occurrence index lies in the current sentence and i <
len(token_idxes) - 1, add the sentence's pronouns once and advance i.
Out-of-range reads (Python IndexError on an empty occurrence list) are
embedded with default 0. -/
def find_pronouns_inner (sent : List String) (start stop : Nat) (idxs : List Nat)
    (i : Nat) (mentions : List String) : Nat × List String :=
  if h : start ≤ idxs.getD i 0 ∧ idxs.getD i 0 < stop ∧ i < idxs.length - 1 then
    find_pronouns_inner sent start stop idxs (i + 1) (mentions ++ match_pronouns sent)
  else (i, mentions)
termination_by idxs.length - i
decreasing_by simp_wf; omega

/-- The outer while loop of GenderAnnotation._find_pronouns (lines 115-150):
while j < len(sents) - 1, update start and end to the current sentence's
token range, run the inner loop and advance j. -/
def find_pronouns_outer (sents : List (List String)) (idxs : List Nat)
    (j i start stop : Nat) (mentions : List String) : List String :=
  if h : j < sents.length - 1 then
    let start2 := if 0 < j then start + (sents.getD (j - 1) []).length else start
    let sent := sents.getD j []
    let stop2 := stop + sent.length
    let r := find_pronouns_inner sent start2 stop2 idxs i mentions
    find_pronouns_outer sents idxs (j + 1) r.1 start2 stop2 r.2
  else mentions
termination_by sents.length - j
decreasing_by simp_wf; omega

/-- GenderAnnotation._find_pronouns (lines 109-154) over the sentence list
(each sentence its token list) and the occurrence index list. -/
def find_pronouns (sents : List (List String)) (idxs : List Nat) : List String :=
  find_pronouns_outer sents idxs 0 0 0 0 []

/-- The occurrence count len(self.chars[name].occurences) of a name. -/
def occ_count (chars : String → Character) (n : String) : Nat :=
  (chars n).occurences.length

/-- The partners contributed to the correspondence list of the name x by a
pair sequence: for each recorded pair, its other component.  Used to state
what build_correspondence computes. -/
def corr_contrib (chars : String → Character) (x : String) : List (String × String) → List String
  | [] => []
  | pr :: ps =>
      (if corr_ok chars pr.1 pr.2 then
        (if x = pr.1 then [pr.2] else []) ++ (if x = pr.2 then [pr.1] else [])
      else []) ++ corr_contrib chars x ps

/-- The all-UNKNOWN estimator result map, used to instantiate theorems. -/
def gU : String → Gender := fun _ => Gender.UNKNOWN

/-- A concrete annotated entity used to instantiate the general theorems. -/
def demoChar (n : String) (parsed : NameParsed) (k : Nat) (g : Gender) : Character :=
  { name := n, occurences := List.range k, name_parsed := parsed, gender := some g }

/-- A concrete store function: Sherlock Holmes with 5 occurrences, Mycroft
Holmes with 2, Mr. Holmes with 1, everything else empty-handed. -/
def demoStore : String → Character := fun n =>
  if n = "Sherlock Holmes" then
    demoChar n { title := "", first := "Sherlock", last := "Holmes" } 5 Gender.MALE
  else if n = "Mycroft Holmes" then
    demoChar n { title := "", first := "Mycroft", last := "Holmes" } 2 Gender.MALE
  else if n = "Mr. Holmes" then
    demoChar n { title := "Mr.", first := "Holmes", last := "" } 1 Gender.MALE
  else if n = "Irene Adler" then
    demoChar n { title := "", first := "Irene", last := "Adler" } 3 Gender.FEMALE
  else demoChar n { title := "", first := n, last := "" } 1 Gender.UNKNOWN

/-- The contested-referent configuration of the claim: the referent Holmes
claimed by both Sherlock Holmes (5 occurrences) and Mycroft Holmes (2). -/
def demoSameChars : List (String × List String) :=
  [("Sherlock Holmes", ["Holmes"]), ("Mycroft Holmes", ["Holmes"])]

/-- A candidate map with one gender-conflicting pair. -/
def demoFilterInput : List (String × List String) :=
  [("Irene Adler", ["Sherlock Holmes"]), ("Mr. Holmes", ["Sherlock Holmes"])]

/-- A one-entity store fresh out of detection: gender annotation has not run
(the gender field is still unset). -/
def demoDetectedStore : List (String × Character) :=
  [("Alice", { name := "Alice", occurences := [0],
               name_parsed := { title := "", first := "Alice", last := "" }, gender := none })]

/-- The canonical name list for the cross-name correspondence instance. -/
def demoCharlist : List String := ["Sherlock Holmes", "Mycroft Holmes"]

/-- A concrete document token list. -/
def demoDoc : List String := ["Mr.", "Holmes", "saw", "Alice"]

/-- A concrete configured honorific set. -/
def demoTitles : List String := ["Mr", "Mrs", "Miss"]

/-- Concrete PERSON entity spans over demoDoc. -/
def demoEnts : List Span :=
  [{ label := "PERSON", text := "Holmes", start := 1 },
   { label := "PERSON", text := "Alice", start := 3 }]

theorem add_sighting_occ_ne_nil {chars : List (String × Character)} {titles : List String}
    {name : String} {idx : Nat}
    (h : ∀ p ∈ chars, p.2.occurences ≠ []) :
    ∀ p ∈ add_sighting chars titles name idx, p.2.occurences ≠ [] := by
  intro p hp
  simp only [add_sighting] at hp
  rcases List.mem_map.mp hp with ⟨q, hq, rfl⟩
  by_cases hqn : q.1 == name
  · rw [if_pos hqn]
    simp [append_occurences]
  · rw [if_neg hqn]
    by_cases hany : chars.any (fun p => p.1 == name)
    · rw [if_pos hany] at hq
      exact h q hq
    · rw [if_neg hany] at hq
      rcases List.mem_append.mp hq with hq1 | hq2
      · exact h q hq1
      · rcases List.mem_singleton.mp hq2 with heq
        rw [heq] at hqn
        simp at hqn

/-- Claim C9: every entity in the store produced by detect_characters has a
non-empty occurrence list: an entry is created only at a sighting, and that
same sighting immediately appends its token position. -/
theorem detect_characters_occurences_nonempty (doc : List String) (titles : List String)
    (ents : List Span) :
    ∀ p ∈ detect_characters doc titles ents, p.2.occurences ≠ [] := by
  unfold detect_characters
  have hgen : ∀ (es : List Span) (acc : List (String × Character)),
      (∀ p ∈ acc, p.2.occurences ≠ []) →
      ∀ p ∈ es.foldl (fun chars ent =>
        if ent.label == "PERSON" then
          add_sighting chars titles (canonical_name doc titles ent) ent.start
        else chars) acc, p.2.occurences ≠ [] := by
    intro es
    induction es with
    | nil => intro acc h; simpa using h
    | cons e es ih =>
        intro acc h
        rw [List.foldl_cons]
        apply ih
        by_cases he : e.label == "PERSON"
        · rw [if_pos he]
          exact add_sighting_occ_ne_nil h
        · rw [if_neg he]
          exact h
  exact hgen ents [] (by simp)

/-- Witness for C9 at a concrete detection run: the Mr. Holmes entry carries
its sighting position. -/
theorem detect_characters_occurences_nonempty_witness :
    ("Mr. Holmes",
      ({ name := "Mr. Holmes", occurences := [1],
         name_parsed := { title := "Mr.", first := "Holmes", last := "" },
         gender := none } : Character))
        ∈ detect_characters demoDoc demoTitles demoEnts
    ∧ ([1] : List Nat) ≠ [] := by
  constructor
  · decide
  · exact detect_characters_occurences_nonempty demoDoc demoTitles demoEnts
      ("Mr. Holmes",
        ({ name := "Mr. Holmes", occurences := [1],
           name_parsed := { title := "Mr.", first := "Holmes", last := "" },
           gender := none } : Character)) (by decide)

theorem add_sighting_key_self (chars : List (String × Character)) (titles : List String)
    (name : String) (idx : Nat) :
    (add_sighting chars titles name idx).any (fun p => p.1 == name) = true := by
  simp only [add_sighting]
  by_cases hany : chars.any (fun p => p.1 == name)
  · rw [if_pos hany]
    rcases List.any_eq_true.mp hany with ⟨q, hq, hqn⟩
    apply List.any_eq_true.mpr
    refine ⟨(q.1, append_occurences q.2 idx), ?_, by simpa using hqn⟩
    refine List.mem_map.mpr ⟨q, hq, ?_⟩
    rw [if_pos hqn]
  · rw [if_neg hany]
    apply List.any_eq_true.mpr
    refine ⟨(name, append_occurences (fresh_character titles name) idx), ?_, by simp⟩
    refine List.mem_map.mpr ⟨(name, fresh_character titles name), ?_, ?_⟩
    · exact List.mem_append.mpr (Or.inr (List.mem_singleton.mpr rfl))
    · rw [if_pos (by simp)]

theorem add_sighting_key_mono {chars : List (String × Character)} {titles : List String}
    {name k : String} {idx : Nat}
    (h : chars.any (fun p => p.1 == k) = true) :
    (add_sighting chars titles name idx).any (fun p => p.1 == k) = true := by
  simp only [add_sighting]
  rcases List.any_eq_true.mp h with ⟨q, hq, hqk⟩
  have hq2 : q ∈ (if chars.any (fun p => p.1 == name) then chars
      else chars ++ [(name, fresh_character titles name)]) := by
    by_cases hany : chars.any (fun p => p.1 == name)
    · rw [if_pos hany]
      exact hq
    · rw [if_neg hany]
      exact List.mem_append.mpr (Or.inl hq)
  apply List.any_eq_true.mpr
  by_cases hqn : q.1 == name
  · exact ⟨(q.1, append_occurences q.2 idx),
      List.mem_map.mpr ⟨q, hq2, by rw [if_pos hqn]⟩, hqk⟩
  · exact ⟨q, List.mem_map.mpr ⟨q, hq2, by rw [if_neg hqn]⟩, hqk⟩

theorem detect_fold_key_mono (doc : List String) (titles : List String) (k : String) :
    ∀ (es : List Span) (acc : List (String × Character)),
      acc.any (fun p => p.1 == k) = true →
      (es.foldl (fun chars ent =>
        if ent.label == "PERSON" then
          add_sighting chars titles (canonical_name doc titles ent) ent.start
        else chars) acc).any (fun p => p.1 == k) = true := by
  intro es
  induction es with
  | nil => intro acc h; simpa using h
  | cons e es ih =>
      intro acc h
      rw [List.foldl_cons]
      apply ih
      by_cases he : e.label == "PERSON"
      · rw [if_pos he]
        exact add_sighting_key_mono h
      · rw [if_neg he]
        exact h

/-- Claim C10: the canonical key of a PERSON entity is the preceding token,
a space and the entity text exactly when the entity does not start at token
0 and the preceding token with periods removed is in the title set;
otherwise (in particular for an entity starting at token 0) the key is the
entity text unchanged, and detect_characters stores every PERSON entity
under this key. -/
theorem canonical_key_spec (doc : List String) (titles : List String) :
    (∀ ent : Span, 1 ≤ ent.start →
        titles.contains (removeChar '.' (doc.getD (ent.start - 1) "")) = true →
        canonical_name doc titles ent = (doc.getD (ent.start - 1) "") ++ " " ++ ent.text)
    ∧ (∀ ent : Span, ent.start = 0 → canonical_name doc titles ent = ent.text)
    ∧ (∀ ent : Span,
        titles.contains (removeChar '.' (doc.getD (ent.start - 1) "")) = false →
        canonical_name doc titles ent = ent.text)
    ∧ (∀ ents : List Span, ∀ ent ∈ ents, ent.label = "PERSON" →
        (detect_characters doc titles ents).any
          (fun p => p.1 == canonical_name doc titles ent) = true) := by
  refine ⟨?_, ?_, ?_, ?_⟩
  · intro ent h1 h2
    simp only [canonical_name]
    rw [if_pos h1, if_pos h2]
  · intro ent h0
    simp only [canonical_name]
    rw [if_neg (by omega)]
  · intro ent h2
    simp only [canonical_name]
    by_cases h1 : 1 ≤ ent.start
    · rw [if_pos h1, if_neg (by rw [h2]; simp)]
    · rw [if_neg h1]
  · intro ents
    have hgen : ∀ (es : List Span) (acc : List (String × Character)) (ent : Span),
        ent ∈ es → ent.label = "PERSON" →
        (es.foldl (fun chars ent2 =>
          if ent2.label == "PERSON" then
            add_sighting chars titles (canonical_name doc titles ent2) ent2.start
          else chars) acc).any (fun p => p.1 == canonical_name doc titles ent) = true := by
      intro es
      induction es with
      | nil => intro acc ent hent; cases hent
      | cons e es ih =>
          intro acc ent hent hlabel
          rw [List.foldl_cons]
          rcases List.mem_cons.mp hent with heq | hmem
          · subst heq
            apply detect_fold_key_mono
            rw [if_pos (by simp [hlabel])]
            exact add_sighting_key_self acc titles (canonical_name doc titles ent) ent.start
          · exact ih _ ent hmem hlabel
    intro ent hent hlabel
    exact hgen ents [] ent hent hlabel

/-- Witness for C10: the Mr. Holmes key with a preceding title token, and an
entity starting at token 0 keeping its bare text. -/
theorem canonical_key_spec_witness :
    canonical_name demoDoc demoTitles { label := "PERSON", text := "Holmes", start := 1 }
      = "Mr. Holmes"
    ∧ canonical_name demoDoc demoTitles { label := "PERSON", text := "Watson", start := 0 }
      = "Watson" := by
  constructor
  · have h := (canonical_key_spec demoDoc demoTitles).1
      { label := "PERSON", text := "Holmes", start := 1 } (by decide) (by decide)
    simpa using h
  · exact (canonical_key_spec demoDoc demoTitles).2.1
      { label := "PERSON", text := "Watson", start := 0 } rfl

/-- Claim C7 is contradicted by the code: _find_pronouns never scans the
sentence of the last occurrence in the list (the inner guard requires
i < len(token_idxes) - 1) and never scans the last sentence of the document
(the outer guard requires j < len(sents) - 1).  Here a single occurrence at
token 2 of a pronoun-bearing first sentence yields an empty tally, and an
occurrence in a pronoun-bearing last sentence contributes nothing. -/
theorem find_pronouns_misses_last :
    match_pronouns ["He", "saw", "Tom"] = ["He"]
    ∧ find_pronouns [["He", "saw", "Tom"], ["The", "end"]] [2] = []
    ∧ match_pronouns ["She", "smiled"] = ["She"]
    ∧ find_pronouns [["Tom", "ran"], ["She", "smiled"]] [0, 2] = [] := by
  refine ⟨by decide, ?_, by decide, ?_⟩ <;>
    simp [find_pronouns, find_pronouns_outer, find_pronouns_inner, match_pronouns, lowerStr,
      male_pronoun_list, female_pronoun_list]

/-- Claim C1 counterexample: with title result FEMALE, name-list result
UNKNOWN and pronoun result MALE, annotate_gender assigns FEMALE (the count
of FEMALE among the specified results equals their number), not the MALE
pronoun fallback the claim requires. -/
theorem fuseGender_one_unknown_counterexample :
    fuseGender Gender.FEMALE Gender.UNKNOWN Gender.MALE = Gender.FEMALE ∧
      Gender.FEMALE ≠ Gender.MALE := by
  decide

/-- Claim C1 (amended): the fused gender equals the title and name-list
results when they agree; when exactly one of the two is UNKNOWN it equals
the other, non-UNKNOWN one; the PronounWindowEstimator result is used only
when both are UNKNOWN or one is MALE and the other FEMALE. -/
theorem fuseGender_fusion_rule (t n p : Gender) :
    fuseGender t n p =
      if t = Gender.UNKNOWN ∧ n = Gender.UNKNOWN then p
      else if t = n then t
      else if n = Gender.UNKNOWN then t
      else if t = Gender.UNKNOWN then n
      else p := by
  cases t <;> cases n <;> cases p <;> decide

theorem count_FM_total (votes : List Gender)
    (hv : ∀ v ∈ votes, v = Gender.FEMALE ∨ v = Gender.MALE) :
    votes.count Gender.FEMALE + votes.count Gender.MALE = votes.length := by
  induction votes with
  | nil => simp
  | cons v vs ih =>
      have hv2 : ∀ x ∈ vs, x = Gender.FEMALE ∨ x = Gender.MALE :=
        fun x hx => hv x (List.mem_cons_of_mem _ hx)
      have h := ih hv2
      rcases hv v (List.mem_cons_self _ _) with h1 | h1 <;> subst h1 <;>
        simp [List.count_cons] <;> omega

/-- Claim C6: on the per-occurrence title vote list the final decision is
UNKNOWN for zero votes, FEMALE when the FEMALE count is at least half of the
total, and otherwise MALE (the MALE count then being at least half of the
total); a one-one tie and a two-one FEMALE majority both resolve to FEMALE
because the FEMALE branch is checked first. -/
theorem title_gender_decision_spec (votes : List Gender)
    (hv : ∀ v ∈ votes, v = Gender.FEMALE ∨ v = Gender.MALE) :
    (votes = [] → title_gender_decision votes = some Gender.UNKNOWN)
    ∧ (votes ≠ [] → 2 * votes.count Gender.FEMALE ≥ votes.length →
        title_gender_decision votes = some Gender.FEMALE)
    ∧ (votes ≠ [] → ¬(2 * votes.count Gender.FEMALE ≥ votes.length) →
        2 * votes.count Gender.MALE ≥ votes.length ∧
          title_gender_decision votes = some Gender.MALE)
    ∧ title_gender_decision [Gender.MALE, Gender.FEMALE] = some Gender.FEMALE
    ∧ title_gender_decision [Gender.FEMALE, Gender.FEMALE, Gender.MALE] = some Gender.FEMALE := by
  refine ⟨?_, ?_, ?_, by decide, by decide⟩
  · intro h
    subst h
    decide
  · intro hne hF
    have hs : ¬(votes.length = 0) := fun hc => hne (List.length_eq_zero.mp hc)
    simp only [title_gender_decision]
    rw [if_neg hs, if_pos hF]
  · intro hne hnF
    have hsum := count_FM_total votes hv
    have hs : ¬(votes.length = 0) := fun hc => hne (List.length_eq_zero.mp hc)
    have hM : 2 * votes.count Gender.MALE ≥ votes.length := by omega
    refine ⟨hM, ?_⟩
    simp only [title_gender_decision]
    rw [if_neg hs, if_neg hnF, if_pos hM]

/-- Witness for C6 at the concrete two-one tally of the claim. -/
theorem title_gender_decision_spec_witness :
    title_gender_decision [Gender.FEMALE, Gender.FEMALE, Gender.MALE] = some Gender.FEMALE :=
  (title_gender_decision_spec [Gender.FEMALE, Gender.FEMALE, Gender.MALE]
    (by decide)).2.1 (by decide) (by decide)

/-- Claim C5: annotate_gender fails with the state error exactly on a store
that detect_characters has not produced (None); on a produced store it
returns normally, with the same keys and a gender value written on every
entity. -/
theorem annotate_gender_spec (gt gn gp : String → Gender)
    (chars : Option (List (String × Character))) :
    (chars = none →
      annotate_gender gt gn gp chars = Except.error state_error_msg)
    ∧ (∀ cs, chars = some cs → ∃ out,
        annotate_gender gt gn gp chars = Except.ok out
        ∧ out.map Prod.fst = cs.map Prod.fst
        ∧ ∀ p ∈ out, ∃ g : Gender, p.2.gender = some g) := by
  constructor
  · intro h
    subst h
    rfl
  · intro cs h
    subst h
    refine ⟨_, rfl, by simp, ?_⟩
    intro p hp
    rcases List.mem_map.mp hp with ⟨q, hq, rfl⟩
    exact ⟨_, rfl⟩

/-- Witness for C5: the error case on None and the normal case on a concrete
one-entity store. -/
theorem annotate_gender_spec_witness :
    annotate_gender gU gU gU none = Except.error state_error_msg
    ∧ (annotate_gender gU gU gU (some demoDetectedStore)).isOk = true := by
  refine ⟨(annotate_gender_spec gU gU gU none).1 rfl, ?_⟩
  obtain ⟨out, hout, -, -⟩ :=
    (annotate_gender_spec gU gU gU (some demoDetectedStore)).2 demoDetectedStore rfl
  rw [hout]
  rfl

/-- Claim C4 counterexample: on a store produced by detection whose gender
annotation has not run (every gender still unset), unify_occurences does not
raise the state error the claim requires; it returns the group list. -/
theorem unify_occurences_no_annotation_check :
    demoDetectedStore.all (fun p => p.2.gender == none) = true
    ∧ unify_occurences [] (some demoDetectedStore) = Except.ok [["Alice"]] := by
  exact ⟨by decide, rfl⟩

/-- Claim C4 (amended): unify_occurences fails with the state error if and
only if self.chars is None, that is, exactly when detect_characters has not
run; it does not check that gender annotation has run, and on any present
store it returns the group list with no error. -/
theorem unify_occurences_state_guard (referents : List (String × List String))
    (chars : Option (List (String × Character))) :
    (chars = none → unify_occurences referents chars = Except.error state_error_msg)
    ∧ (∀ cs, chars = some cs → ∃ out, unify_occurences referents chars = Except.ok out) := by
  constructor
  · intro h
    subst h
    rfl
  · intro cs h
    subst h
    exact ⟨_, rfl⟩

theorem foldl_step_flatten {α β : Type} (step : List β → α → List β) (f : α → List β)
    (hstep : ∀ a x, step a x = a ++ f x) (l : List α) :
    ∀ acc : List β, l.foldl step acc = acc ++ (l.map f).flatten := by
  induction l with
  | nil => intro acc; simp
  | cons x xs ih =>
      intro acc
      rw [List.foldl_cons, hstep, ih]
      simp

theorem mem_pair_removals {chars : String → Character} {name ref n r : String} :
    (n, r) ∈ pair_removals chars name ref ↔
      n = name ∧ r = ref ∧
        (gender_unmatch (chars name).gender (chars ref).gender = true ∨
          (((chars name).name_parsed.title ≠ "" ∧ (chars ref).name_parsed.title ≠ "") ∧
            (chars name).name_parsed.title ≠ (chars ref).name_parsed.title)) := by
  unfold pair_removals
  by_cases h1 : gender_unmatch (chars name).gender (chars ref).gender <;>
    by_cases h2 : ((chars name).name_parsed.title ≠ "" ∧ (chars ref).name_parsed.title ≠ "") ∧
        (chars name).name_parsed.title ≠ (chars ref).name_parsed.title <;>
    simp [h1, h2]

theorem constraint_to_remove_eq (chars : String → Character) (sc : List (String × List String)) :
    constraint_to_remove chars sc =
      (sc.map (fun p => (p.2.map (fun ref => pair_removals chars p.1 ref)).flatten)).flatten := by
  have hinner : ∀ (p : String × List String) (acc2 : List (String × String)),
      p.2.foldl (fun a ref =>
        let a2 := if gender_unmatch (chars p.1).gender (chars ref).gender
                  then a ++ [(p.1, ref)] else a
        if ((chars p.1).name_parsed.title ≠ "" ∧ (chars ref).name_parsed.title ≠ "") ∧
            (chars p.1).name_parsed.title ≠ (chars ref).name_parsed.title
        then a2 ++ [(p.1, ref)] else a2) acc2
        = acc2 ++ (p.2.map (fun ref => pair_removals chars p.1 ref)).flatten := by
    intro p
    apply foldl_step_flatten
    intro a ref
    simp only [pair_removals]
    by_cases h1 : gender_unmatch (chars p.1).gender (chars ref).gender <;>
      by_cases h2 : ((chars p.1).name_parsed.title ≠ "" ∧ (chars ref).name_parsed.title ≠ "") ∧
          (chars p.1).name_parsed.title ≠ (chars ref).name_parsed.title <;>
      simp [h1, h2]
  have houter := foldl_step_flatten _ _ (fun acc2 p => hinner p acc2) sc []
  simpa [constraint_to_remove] using houter

theorem mem_constraint_to_remove {chars : String → Character}
    {sc : List (String × List String)} {n r : String} :
    (n, r) ∈ constraint_to_remove chars sc ↔
      ∃ p, p ∈ sc ∧ p.1 = n ∧ r ∈ p.2 ∧
        (gender_unmatch (chars n).gender (chars r).gender = true ∨
          (((chars n).name_parsed.title ≠ "" ∧ (chars r).name_parsed.title ≠ "") ∧
            (chars n).name_parsed.title ≠ (chars r).name_parsed.title)) := by
  rw [constraint_to_remove_eq]
  constructor
  · intro hmem
    rcases List.mem_flatten.mp hmem with ⟨L, hL, hmemL⟩
    rcases List.mem_map.mp hL with ⟨p, hp, rfl⟩
    rcases List.mem_flatten.mp hmemL with ⟨L2, hL2, hmem2⟩
    rcases List.mem_map.mp hL2 with ⟨ref, href, rfl⟩
    rcases mem_pair_removals.mp hmem2 with ⟨rfl, rfl, hcond⟩
    exact ⟨p, hp, rfl, href, hcond⟩
  · rintro ⟨p, hp, rfl, hr, hcond⟩
    refine List.mem_flatten.mpr ⟨_, List.mem_map.mpr ⟨p, hp, rfl⟩, ?_⟩
    exact List.mem_flatten.mpr ⟨_, List.mem_map.mpr ⟨r, hr, rfl⟩,
      mem_pair_removals.mpr ⟨rfl, rfl, hcond⟩⟩

theorem gender_unmatch_iff (a b : Gender) :
    gender_unmatch (some a) (some b) = true ↔
      a ≠ Gender.UNKNOWN ∧ b ≠ Gender.UNKNOWN ∧ a ≠ b := by
  cases a <;> cases b <;> decide

theorem dropPairSpec_iff (chars : String → Character) (n r : String)
    (hn : (chars n).gender ≠ none) (hr : (chars r).gender ≠ none) :
    dropPairSpec chars n r = true ↔
      (gender_unmatch (chars n).gender (chars r).gender = true ∨
        (((chars n).name_parsed.title ≠ "" ∧ (chars r).name_parsed.title ≠ "") ∧
          (chars n).name_parsed.title ≠ (chars r).name_parsed.title)) := by
  obtain ⟨a, ha⟩ := Option.ne_none_iff_exists'.mp hn
  obtain ⟨b, hb⟩ := Option.ne_none_iff_exists'.mp hr
  simp only [dropPairSpec, ha, hb, decide_eq_true_eq, gender_unmatch_iff, ne_eq,
    Option.some.injEq]
  tauto

/-- Claim C3: a (name, referent) candidate pair is discarded by the
constraint filter if and only if both genders are non-UNKNOWN and differ or
both parsed titles are non-empty and differ; a FEMALE/MALE pair always
satisfies the drop condition, and a pair with an UNKNOWN gender never
violates the gender constraint. -/
theorem constraint_filter_spec (chars : String → Character)
    (sc : List (String × List String)) (hpop : ∀ n : String, (chars n).gender ≠ none) :
    filter_referents chars sc =
      sc.map (fun p => (p.1, p.2.filter (fun ref => !(dropPairSpec chars p.1 ref))))
    ∧ (∀ name ref, (chars name).gender = some Gender.FEMALE →
        (chars ref).gender = some Gender.MALE → dropPairSpec chars name ref = true)
    ∧ (∀ name ref, (chars name).gender = some Gender.UNKNOWN ∨
        (chars ref).gender = some Gender.UNKNOWN →
        gender_unmatch (chars name).gender (chars ref).gender = false) := by
  refine ⟨?_, ?_, ?_⟩
  · unfold filter_referents
    apply List.map_congr_left
    intro p hp
    refine congrArg (fun l => (p.1, l)) ?_
    apply List.filter_congr
    intro ref href
    have hmm : (constraint_to_remove chars sc).contains (p.1, ref) = true ↔
        (p.1, ref) ∈ constraint_to_remove chars sc := by
      simp
    have hiff : (constraint_to_remove chars sc).contains (p.1, ref) = true ↔
        dropPairSpec chars p.1 ref = true := by
      rw [hmm, mem_constraint_to_remove,
        dropPairSpec_iff chars p.1 ref (hpop p.1) (hpop ref)]
      constructor
      · rintro ⟨q, hq, h1, h2, hcond⟩
        exact hcond
      · intro hcond
        exact ⟨p, hp, rfl, href, hcond⟩
    rw [Bool.eq_iff_iff.mpr hiff]
  · intro name ref h1 h2
    simp only [dropPairSpec, h1, h2, decide_eq_true_eq]
    left
    exact ⟨by decide, by decide, by decide⟩
  · intro name ref h
    unfold gender_unmatch
    rcases h with h | h <;> rw [h] <;>
      rw [if_pos (by simp [List.count_cons])]

/-- Witness for C3 on a concrete store: the FEMALE/MALE pair is dropped
despite agreeing titles, the MALE/MALE pair with a one-sided title is kept. -/
theorem constraint_filter_spec_witness :
    filter_referents demoStore demoFilterInput =
      [("Irene Adler", []), ("Mr. Holmes", ["Sherlock Holmes"])] := by
  have hpop : ∀ n : String, (demoStore n).gender ≠ none := by
    intro n
    unfold demoStore demoChar
    split_ifs <;> simp
  rw [(constraint_filter_spec demoStore demoFilterInput hpop).1]
  decide

theorem maxFreq_fold_spec (chars : String → Character) (l : List String) :
    ∀ (m rn : String) (ro : Nat),
      l.foldl (maxStep chars) (m, occ_count chars m) = (rn, ro) →
      ro = occ_count chars rn
      ∧ ((rn = m ∧ ∀ x ∈ l, occ_count chars x ≤ occ_count chars m)
        ∨ (∃ k, ∃ hk : k < l.length,
            l.get ⟨k, hk⟩ = rn
            ∧ occ_count chars m < occ_count chars rn
            ∧ (∀ x ∈ l, occ_count chars x ≤ occ_count chars rn)
            ∧ ∀ j, ∀ hj : j < l.length, j < k →
                occ_count chars (l.get ⟨j, hj⟩) < occ_count chars rn)) := by
  induction l with
  | nil =>
      intro m rn ro h
      simp only [List.foldl_nil, Prod.mk.injEq] at h
      refine ⟨by rw [← h.1, ← h.2], Or.inl ⟨h.1.symm, by simp⟩⟩
  | cons x xs ih =>
      intro m rn ro h
      rw [List.foldl_cons] at h
      by_cases hx : occ_count chars x > occ_count chars m
      · have hx2 : (chars x).occurences.length > (chars m).occurences.length := hx
        have hstep : maxStep chars (m, occ_count chars m) x = (x, occ_count chars x) := by
          simp [maxStep, occ_count, hx2]
        rw [hstep] at h
        rcases ih x rn ro h with ⟨h2, hcase⟩
        refine ⟨h2, Or.inr ?_⟩
        rcases hcase with ⟨heq, hbound⟩ | ⟨k, hk, hget, hlt, hbound, hpre⟩
        · refine ⟨0, by simp, ?_, ?_, ?_, ?_⟩
          · simpa using heq.symm
          · rw [← heq] at hx
            exact hx
          · intro y hy
            rcases List.mem_cons.mp hy with rfl | hy2
            · rw [heq]
            · rw [heq]
              exact hbound y hy2
          · intro j hj hj0
            omega
        · refine ⟨k + 1, by simpa using Nat.succ_lt_succ hk, ?_, ?_, ?_, ?_⟩
          · simpa using hget
          · exact lt_trans hx hlt
          · intro y hy
            rcases List.mem_cons.mp hy with rfl | hy2
            · exact le_of_lt hlt
            · exact hbound y hy2
          · intro j hj hjk
            cases j with
            | zero => simpa using hlt
            | succ j2 =>
                have hj2 : j2 < xs.length := by simpa using hj
                have := hpre j2 hj2 (Nat.lt_of_succ_lt_succ hjk)
                simpa using this
      · have hx2 : ¬((chars x).occurences.length > (chars m).occurences.length) := hx
        have hstep : maxStep chars (m, occ_count chars m) x = (m, occ_count chars m) := by
          simp [maxStep, occ_count, hx2]
        rw [hstep] at h
        rcases ih m rn ro h with ⟨h2, hcase⟩
        refine ⟨h2, ?_⟩
        rcases hcase with ⟨heq, hbound⟩ | ⟨k, hk, hget, hlt, hbound, hpre⟩
        · refine Or.inl ⟨heq, ?_⟩
          intro y hy
          rcases List.mem_cons.mp hy with rfl | hy2
          · omega
          · exact hbound y hy2
        · refine Or.inr ⟨k + 1, by simpa using Nat.succ_lt_succ hk, by simpa using hget, hlt, ?_, ?_⟩
          · intro y hy
            rcases List.mem_cons.mp hy with rfl | hy2
            · omega
            · exact hbound y hy2
          · intro j hj hjk
            cases j with
            | zero =>
                have : occ_count chars x ≤ occ_count chars m := by omega
                have h0 : ((x :: xs).get ⟨0, hj⟩) = x := rfl
                rw [h0]
                omega
            | succ j2 =>
                have hj2 : j2 < xs.length := by simpa using hj
                have := hpre j2 hj2 (Nat.lt_of_succ_lt_succ hjk)
                simpa using this

theorem maxFreqName_spec (chars : String → Character) (n : String) (ns : List String) :
    ∃ k, ∃ hk : k < (n :: ns).length,
      (n :: ns).get ⟨k, hk⟩ = maxFreqName chars (n :: ns)
      ∧ (∀ x ∈ n :: ns, occ_count chars x ≤ occ_count chars (maxFreqName chars (n :: ns)))
      ∧ ∀ j, ∀ hj : j < (n :: ns).length, j < k →
          occ_count chars ((n :: ns).get ⟨j, hj⟩)
            < occ_count chars (maxFreqName chars (n :: ns)) := by
  have hstep0 : (n :: ns).foldl (maxStep chars) (n, 0)
      = ns.foldl (maxStep chars) (n, occ_count chars n) := by
    rw [List.foldl_cons]
    congr 1
    rcases Nat.eq_zero_or_pos ((chars n).occurences.length) with h | h
    · simp [maxStep, occ_count, h]
    · simp [maxStep, occ_count, h]
  rcases hre : ns.foldl (maxStep chars) (n, occ_count chars n) with ⟨rn, ro⟩
  have hmf : maxFreqName chars (n :: ns) = rn := by
    have h1 : maxFreqName chars (n :: ns) = ((n :: ns).foldl (maxStep chars) (n, 0)).1 := rfl
    rw [h1, hstep0, hre]
  rcases (maxFreq_fold_spec chars ns n rn ro hre).2 with ⟨heq, hbound⟩ |
    ⟨k, hk, hget, hlt, hbound, hpre⟩
  · refine ⟨0, by simp, ?_, ?_, ?_⟩
    · rw [hmf, heq]
      rfl
    · intro y hy
      rw [hmf, heq]
      rcases List.mem_cons.mp hy with rfl | hy2
      · exact le_refl _
      · exact hbound y hy2
    · intro j hj hj0
      omega
  · refine ⟨k + 1, by simpa using Nat.succ_lt_succ hk, ?_, ?_, ?_⟩
    · rw [hmf]
      simpa using hget
    · intro y hy
      rw [hmf]
      rcases List.mem_cons.mp hy with rfl | hy2
      · exact le_of_lt hlt
      · exact hbound y hy2
    · intro j hj hjk
      rw [hmf]
      cases j with
      | zero => simpa using hlt
      | succ j2 =>
          have hj2 : j2 < ns.length := by simpa using hj
          have := hpre j2 hj2 (Nat.lt_of_succ_lt_succ hjk)
          simpa using this

theorem lookup_appendAssoc (m : List (String × List String)) (k v x : String) :
    lookupVals (appendAssoc m k v) x =
      if x = k then lookupVals m k ++ [v] else lookupVals m x := by
  induction m with
  | nil =>
      by_cases hx : x = k
      · simp [appendAssoc, lookupVals, hx]
      · have hkx : ¬(k = x) := fun hc => hx hc.symm
        simp [appendAssoc, lookupVals, hx, hkx]
  | cons p m ih =>
      simp only [appendAssoc]
      by_cases hpk : p.1 = k
      · rw [if_pos hpk]
        by_cases hx : x = k
        · simp [lookupVals, hpk, hx]
        · have hkx : ¬(p.1 = x) := by
            rw [hpk]
            exact fun hc => hx hc.symm
          simp [lookupVals, hkx, hx]
      · rw [if_neg hpk]
        by_cases hpx : p.1 = x
        · have hx : ¬(x = k) := fun hc => hpk (by rw [hpx, hc])
          simp [lookupVals, hpx, hx]
        · by_cases hx : x = k
          · subst hx
            simp [lookupVals, hpx, hpk, ih]
          · simp [lookupVals, hpx, hx, ih]

theorem appendAssoc_keys (m : List (String × List String)) (k v : String) :
    (appendAssoc m k v).map Prod.fst =
      if k ∈ m.map Prod.fst then m.map Prod.fst else m.map Prod.fst ++ [k] := by
  induction m with
  | nil => simp [appendAssoc]
  | cons p m ih =>
      simp only [appendAssoc]
      by_cases hpk : p.1 = k
      · rw [if_pos hpk]
        simp [hpk]
      · rw [if_neg hpk]
        have hkp : ¬(k = p.1) := fun hc => hpk hc.symm
        by_cases hk : k ∈ m.map Prod.fst <;> simp [ih, hk, hkp]

theorem appendAssoc_keys_nodup {m : List (String × List String)} {k v : String}
    (h : (m.map Prod.fst).Nodup) : ((appendAssoc m k v).map Prod.fst).Nodup := by
  rw [appendAssoc_keys]
  by_cases hk : k ∈ m.map Prod.fst
  · simpa [hk] using h
  · simp only [hk, if_false]
    rw [List.nodup_append]
    refine ⟨h, List.nodup_singleton k, ?_⟩
    intro a ha hb
    rw [List.mem_singleton] at hb
    rw [hb] at ha
    exact hk ha

theorem invert_inner_lookup (name : String) (refs : List String) :
    ∀ (acc : List (String × List String)) (x : String),
      lookupVals (refs.foldl (fun a r => appendAssoc a r name) acc) x =
        lookupVals acc x ++ List.replicate (refs.count x) name := by
  induction refs with
  | nil => intro acc x; simp
  | cons r rs ih =>
      intro acc x
      rw [List.foldl_cons, ih, lookup_appendAssoc]
      by_cases hx : x = r
      · rw [if_pos hx]
        subst hx
        simp [List.count_cons, List.replicate_succ, List.append_assoc]
      · rw [if_neg hx]
        have hrx : ¬(r = x) := fun hc => hx hc.symm
        simp [List.count_cons, hrx]

theorem invert_lookup_gen (sc : List (String × List String)) (x : String) :
    ∀ acc : List (String × List String),
      lookupVals (sc.foldl (fun acc p => p.2.foldl (fun a ref => appendAssoc a ref p.1) acc) acc) x
        = lookupVals acc x ++ (sc.map (fun p => List.replicate (p.2.count x) p.1)).flatten := by
  induction sc with
  | nil => simp
  | cons p ps ih =>
      intro acc
      rw [List.foldl_cons, ih, invert_inner_lookup]
      simp [List.append_assoc]

theorem replicate_flatten_claimants (x : String) :
    ∀ sc : List (String × List String), (∀ p ∈ sc, p.2.Nodup) →
      (sc.map (fun p => List.replicate (p.2.count x) p.1)).flatten = claimants_of sc x := by
  intro sc
  induction sc with
  | nil => intro h; simp [claimants_of]
  | cons p ps ih =>
      intro hrnd
      have hnd := hrnd p (List.mem_cons_self _ _)
      have hrnd2 : ∀ q ∈ ps, q.2.Nodup := fun q hq => hrnd q (List.mem_cons_of_mem _ hq)
      by_cases hx : x ∈ p.2
      · have hc : p.2.count x = 1 := List.count_eq_one_of_mem hnd hx
        simp [claimants_of, List.filter_cons, hx, hc, List.replicate_succ, ih hrnd2]
      · have hc : p.2.count x = 0 := List.count_eq_zero_of_not_mem hx
        simp [claimants_of, List.filter_cons, hx, hc, ih hrnd2]

theorem invert_lookup (sc : List (String × List String))
    (hrnd : ∀ p ∈ sc, p.2.Nodup) (x : String) :
    lookupVals (invert_referents sc) x = claimants_of sc x := by
  have h := invert_lookup_gen sc x []
  simp only [invert_referents]
  rw [h]
  simp only [lookupVals, List.nil_append]
  exact replicate_flatten_claimants x sc hrnd

theorem lookup_of_mem_nodup {m : List (String × List String)} {k : String} {vs : List String}
    (hnd : (m.map Prod.fst).Nodup) (hm : (k, vs) ∈ m) : lookupVals m k = vs := by
  induction m with
  | nil => cases hm
  | cons p ps ih =>
      rw [List.map_cons] at hnd
      rcases List.nodup_cons.mp hnd with ⟨hnotin, hnd2⟩
      rcases List.mem_cons.mp hm with heq | hm2
      · rw [← heq]
        simp [lookupVals]
      · have hkey : ¬(p.1 = k) := by
          intro hc
          apply hnotin
          rw [hc]
          exact List.mem_map.mpr ⟨(k, vs), hm2, rfl⟩
        simp only [lookupVals]
        rw [if_neg hkey]
        exact ih hnd2 hm2

theorem mem_of_lookup_ne_nil {m : List (String × List String)} {k : String}
    (h : lookupVals m k ≠ []) : (k, lookupVals m k) ∈ m := by
  induction m with
  | nil => simp [lookupVals] at h
  | cons p ps ih =>
      by_cases hpk : p.1 = k
      · simp only [lookupVals]
        rw [if_pos hpk]
        exact List.mem_cons.mpr (Or.inl (by rw [← hpk]))
      · simp only [lookupVals] at h ⊢
        rw [if_neg hpk] at h ⊢
        exact List.mem_cons.mpr (Or.inr (ih h))

theorem invert_keys_nodup (sc : List (String × List String)) :
    ((invert_referents sc).map Prod.fst).Nodup := by
  have hinner : ∀ (name : String) (refs : List String) (acc : List (String × List String)),
      (acc.map Prod.fst).Nodup →
      ((refs.foldl (fun a ref => appendAssoc a ref name) acc).map Prod.fst).Nodup := by
    intro name refs
    induction refs with
    | nil => intro acc h; simpa using h
    | cons r rs ih =>
        intro acc h
        rw [List.foldl_cons]
        exact ih _ (appendAssoc_keys_nodup h)
  have houter : ∀ (l : List (String × List String)) (acc : List (String × List String)),
      (acc.map Prod.fst).Nodup →
      ((l.foldl (fun acc p => p.2.foldl (fun a ref => appendAssoc a ref p.1) acc) acc).map
        Prod.fst).Nodup := by
    intro l
    induction l with
    | nil => intro acc h; simpa using h
    | cons p ps ih =>
        intro acc h
        rw [List.foldl_cons]
        exact ih _ (hinner p.1 p.2 acc h)
  simpa [invert_referents] using houter sc [] (by simp)

theorem uncontested_unions_eq (sc repeated : List (String × List String)) :
    uncontested_unions sc repeated =
      (sc.map (fun p => (p.2.map (fun ref =>
        if repeated.any (fun q => q.1 == ref) then ([] : List (String × String))
        else [(p.1, ref)])).flatten)).flatten := by
  unfold uncontested_unions
  have hinner : ∀ (p : String × List String) (acc : List (String × String)),
      p.2.foldl (fun a ref =>
        if repeated.any (fun q => q.1 == ref) then a else a ++ [(p.1, ref)]) acc
        = acc ++ (p.2.map (fun ref =>
            if repeated.any (fun q => q.1 == ref) then ([] : List (String × String))
            else [(p.1, ref)])).flatten := by
    intro p
    apply foldl_step_flatten
    intro a ref
    by_cases hc : repeated.any (fun q => q.1 == ref) <;> simp [hc]
  have houter := foldl_step_flatten _ _ (fun acc p => hinner p acc) sc []
  simpa using houter

theorem mem_uncontested {sc repeated : List (String × List String)} {n r : String} :
    (n, r) ∈ uncontested_unions sc repeated ↔
      ∃ p, p ∈ sc ∧ p.1 = n ∧ r ∈ p.2 ∧
        repeated.any (fun q => q.1 == r) = false := by
  rw [uncontested_unions_eq]
  constructor
  · intro hm
    rcases List.mem_flatten.mp hm with ⟨L, hL, hmL⟩
    rcases List.mem_map.mp hL with ⟨p, hp, rfl⟩
    rcases List.mem_flatten.mp hmL with ⟨L2, hL2, hm2⟩
    rcases List.mem_map.mp hL2 with ⟨ref, href, rfl⟩
    by_cases hc : repeated.any (fun q => q.1 == ref)
    · rw [if_pos hc] at hm2
      cases hm2
    · rw [if_neg hc] at hm2
      rcases List.mem_singleton.mp hm2 with heq
      have h1 : n = p.1 := congrArg Prod.fst heq
      have h2 : r = ref := congrArg Prod.snd heq
      subst h2
      exact ⟨p, hp, h1.symm, href, Bool.eq_false_iff.mpr hc⟩
  · rintro ⟨p, hp, rfl, hr, hfalse⟩
    refine List.mem_flatten.mpr ⟨_, List.mem_map.mpr ⟨p, hp, rfl⟩, ?_⟩
    refine List.mem_flatten.mpr ⟨_, List.mem_map.mpr ⟨r, hr, rfl⟩, ?_⟩
    have hcond : ¬((repeated.any fun q => q.1 == r) = true) := by
      rw [hfalse]
      simp
    rw [if_neg hcond]
    simp

/-- Claim C2: after filtering, a referent with exactly one claimant is
united unconditionally with that claimant; a referent with two or more
claimants is united by the contested-referent step with exactly the first
claimant of strictly greatest occurrence count (every earlier claimant has
strictly fewer occurrences), and no claimant-to-referent pair for a
contested referent is ever emitted by the uncontested step. -/
theorem repeated_referent_resolution (chars : String → Character)
    (sc : List (String × List String)) (hrnd : ∀ p ∈ sc, p.2.Nodup) (ref : String) :
    (∀ name, claimants_of sc ref = [name] →
        (name, ref) ∈ uncontested_unions sc (repeated_referents sc))
    ∧ (1 < (claimants_of sc ref).length →
        ((ref, maxFreqName chars (claimants_of sc ref))
            ∈ contested_unions chars (repeated_referents sc))
        ∧ (∀ c, (ref, c) ∈ contested_unions chars (repeated_referents sc) →
            c = maxFreqName chars (claimants_of sc ref))
        ∧ (∀ c, (c, ref) ∉ uncontested_unions sc (repeated_referents sc))
        ∧ (∃ k, ∃ hk : k < (claimants_of sc ref).length,
            (claimants_of sc ref).get ⟨k, hk⟩ = maxFreqName chars (claimants_of sc ref)
            ∧ (∀ x ∈ claimants_of sc ref,
                occ_count chars x ≤ occ_count chars (maxFreqName chars (claimants_of sc ref)))
            ∧ ∀ j, ∀ hj : j < (claimants_of sc ref).length, j < k →
                occ_count chars ((claimants_of sc ref).get ⟨j, hj⟩)
                  < occ_count chars (maxFreqName chars (claimants_of sc ref)))) := by
  have hlk : lookupVals (invert_referents sc) ref = claimants_of sc ref :=
    invert_lookup sc hrnd ref
  have hknd := invert_keys_nodup sc
  constructor
  · intro name hone
    have hnotrep : (repeated_referents sc).any (fun q => q.1 == ref) = false := by
      rcases Bool.eq_false_or_eq_true ((repeated_referents sc).any (fun q => q.1 == ref))
        with h | h
      · exfalso
        rcases List.any_eq_true.mp h with ⟨q, hq, hqref⟩
        have hq1 : q.1 = ref := by simpa using hqref
        have hqinv : q ∈ invert_referents sc := (List.mem_filter.mp hq).1
        have hqlong : 1 < q.2.length := by
          have := (List.mem_filter.mp hq).2
          simpa using this
        have hqq : (ref, q.2) ∈ invert_referents sc := by
          rw [← hq1]
          exact hqinv
        have := lookup_of_mem_nodup hknd hqq
        rw [hlk, hone] at this
        rw [← this] at hqlong
        simp at hqlong
      · exact h
    have hentry : ∃ p, p ∈ sc ∧ p.1 = name ∧ ref ∈ p.2 := by
      unfold claimants_of at hone
      rcases hfe : sc.filter (fun p => p.2.contains ref) with - | ⟨p, rest⟩
      · rw [hfe] at hone
        cases hone
      · rw [hfe] at hone
        simp only [List.map_cons] at hone
        have hp1 : p.1 = name := (List.cons_eq_cons.mp hone).1
        have hpmem : p ∈ sc.filter (fun p => p.2.contains ref) := by
          rw [hfe]
          exact List.mem_cons_self _ _
        rcases List.mem_filter.mp hpmem with ⟨hpsc, hpc⟩
        exact ⟨p, hpsc, hp1, by simpa using hpc⟩
    rcases hentry with ⟨p, hpsc, hpname, hrefmem⟩
    exact mem_uncontested.mpr ⟨p, hpsc, hpname, hrefmem, hnotrep⟩
  · intro hlen
    have hne : claimants_of sc ref ≠ [] := by
      intro hc
      rw [hc] at hlen
      simp at hlen
    have hmem_inv : (ref, claimants_of sc ref) ∈ invert_referents sc := by
      have h := mem_of_lookup_ne_nil (m := invert_referents sc) (k := ref)
        (by rw [hlk]; exact hne)
      rwa [hlk] at h
    have hmem_rep : (ref, claimants_of sc ref) ∈ repeated_referents sc :=
      List.mem_filter.mpr ⟨hmem_inv, by simpa using hlen⟩
    refine ⟨?_, ?_, ?_, ?_⟩
    · exact List.mem_map.mpr ⟨(ref, claimants_of sc ref), hmem_rep, rfl⟩
    · intro c hc
      rcases List.mem_map.mp hc with ⟨q, hq, hqe⟩
      have hq1 : q.1 = ref := congrArg Prod.fst hqe
      have hq2 : c = maxFreqName chars q.2 := (congrArg Prod.snd hqe).symm
      have hqinv : q ∈ invert_referents sc := (List.mem_filter.mp hq).1
      have hqq : (ref, q.2) ∈ invert_referents sc := by
        rw [← hq1]
        exact hqinv
      have hlq : lookupVals (invert_referents sc) ref = q.2 := lookup_of_mem_nodup hknd hqq
      rw [hq2, ← hlk, hlq]
    · intro c hc
      rcases mem_uncontested.mp hc with ⟨p, hp, hpc, hrefp, hfalse⟩
      have htrue : (repeated_referents sc).any (fun q => q.1 == ref) = true :=
        List.any_eq_true.mpr ⟨(ref, claimants_of sc ref), hmem_rep, by simp⟩
      rw [htrue] at hfalse
      cases hfalse
    · rcases hcl : claimants_of sc ref with - | ⟨n, ns⟩
      · exact absurd hcl hne
      · exact maxFreqName_spec chars n ns

/-- Witness for C2 at the contested referent Holmes, claimed by Sherlock
Holmes (5 occurrences) and Mycroft Holmes (2 occurrences). -/
theorem repeated_referent_resolution_witness :
    ("Holmes", "Sherlock Holmes")
        ∈ contested_unions demoStore (repeated_referents demoSameChars)
    ∧ ("Mycroft Holmes", "Holmes")
        ∉ uncontested_unions demoSameChars (repeated_referents demoSameChars) := by
  have h := (repeated_referent_resolution demoStore demoSameChars (by decide) "Holmes").2
    (by decide)
  have he : maxFreqName demoStore (claimants_of demoSameChars "Holmes") = "Sherlock Holmes" := by
    decide
  refine ⟨?_, h.2.2.1 "Mycroft Holmes"⟩
  have h1 := h.1
  rw [he] at h1
  exact h1

theorem count_empty_perm (q : NameParsed) :
    [q.title, q.first, q.last].count "" = [q.first, q.last, q.title].count "" := by
  by_cases hf : q.first = "" <;> by_cases hl : q.last = "" <;> by_cases ht : q.title = "" <;>
    simp [hf, hl, ht, List.count_cons]

theorem corr_ok_iff (chars : String → Character) (a b : String) :
    corr_ok chars a b = true ↔
      ¬([(chars a).name_parsed.first, (chars a).name_parsed.last,
          (chars a).name_parsed.title].count "" ≥ 2)
      ∧ ¬([(chars b).name_parsed.first, (chars b).name_parsed.last,
          (chars b).name_parsed.title].count "" ≥ 2)
      ∧ (chars a).gender = (chars b).gender
      ∧ ¬(((chars a).name_parsed.title ≠ "" ∧ (chars b).name_parsed.title ≠ "") ∧
          (chars a).name_parsed.title ≠ (chars b).name_parsed.title)
      ∧ ((chars a).name_parsed.first = (chars b).name_parsed.first ∨
          (chars a).name_parsed.last = (chars b).name_parsed.last) := by
  simp only [corr_ok]
  by_cases h1 : [(chars a).name_parsed.first, (chars a).name_parsed.last,
      (chars a).name_parsed.title].count "" ≥ 2
  · simp [h1]
  · by_cases h2 : [(chars b).name_parsed.first, (chars b).name_parsed.last,
        (chars b).name_parsed.title].count "" ≥ 2
    · simp [h1, h2]
    · by_cases h3 : (chars a).gender ≠ (chars b).gender
      · simp [h1, h2, h3]
      · have hg := not_ne_iff.mp h3
        by_cases h4 : (((chars a).name_parsed.title ≠ "" ∧ (chars b).name_parsed.title ≠ "") ∧
            (chars a).name_parsed.title ≠ (chars b).name_parsed.title)
        · simp [h1, h2, hg, h3, h4]
        · simp [h1, h2, hg, h3, h4]

theorem crossPairSpec_iff (chars : String → Character) (a b : String) :
    crossPairSpec chars a b = true ↔
      ¬([(chars a).name_parsed.first, (chars a).name_parsed.last,
          (chars a).name_parsed.title].count "" ≥ 2)
      ∧ ¬([(chars b).name_parsed.first, (chars b).name_parsed.last,
          (chars b).name_parsed.title].count "" ≥ 2)
      ∧ (chars a).gender = (chars b).gender
      ∧ ¬(((chars a).name_parsed.title ≠ "" ∧ (chars b).name_parsed.title ≠ "") ∧
          (chars a).name_parsed.title ≠ (chars b).name_parsed.title)
      ∧ ((chars a).name_parsed.first = (chars b).name_parsed.first ∨
          (chars a).name_parsed.last = (chars b).name_parsed.last) := by
  unfold crossPairSpec
  simp only [decide_eq_true_eq, count_empty_perm]
  constructor
  · rintro ⟨e1, e2, hg, ht, hfl⟩
    refine ⟨by omega, by omega, hg, ?_, hfl⟩
    intro hc
    exact ht ⟨hc.1.1, hc.1.2, hc.2⟩
  · rintro ⟨e1, e2, hg, ht, hfl⟩
    refine ⟨by omega, by omega, hg, ?_, hfl⟩
    intro hc
    exact ht ⟨⟨hc.1, hc.2.1⟩, hc.2.2⟩

theorem corr_ok_eq_spec (chars : String → Character) (a b : String) :
    corr_ok chars a b = crossPairSpec chars a b :=
  Bool.eq_iff_iff.mpr ((corr_ok_iff chars a b).trans (crossPairSpec_iff chars a b).symm)

theorem corr_ok_symm (chars : String → Character) (a b : String) :
    corr_ok chars a b = corr_ok chars b a := by
  rw [Bool.eq_iff_iff, corr_ok_iff, corr_ok_iff]
  constructor
  · rintro ⟨e1, e2, hg, ht, hfl⟩
    refine ⟨e2, e1, hg.symm, ?_, ?_⟩
    · rintro ⟨⟨x, y⟩, z⟩
      exact ht ⟨⟨y, x⟩, z.symm⟩
    · rcases hfl with h | h
      · exact Or.inl h.symm
      · exact Or.inr h.symm
  · rintro ⟨e1, e2, hg, ht, hfl⟩
    refine ⟨e2, e1, hg.symm, ?_, ?_⟩
    · rintro ⟨⟨x, y⟩, z⟩
      exact ht ⟨⟨y, x⟩, z.symm⟩
    · rcases hfl with h | h
      · exact Or.inl h.symm
      · exact Or.inr h.symm

theorem build_corr_lookup (chars : String → Character) (ps : List (String × String)) :
    ∀ (acc : List (String × List String)) (x : String),
      lookupVals (ps.foldl (fun corr pr =>
        if corr_ok chars pr.1 pr.2 then appendAssoc (appendAssoc corr pr.1 pr.2) pr.2 pr.1
        else corr) acc) x
        = lookupVals acc x ++ corr_contrib chars x ps := by
  induction ps with
  | nil => intro acc x; simp [corr_contrib]
  | cons pr ps ih =>
      intro acc x
      rw [List.foldl_cons, ih]
      simp only [corr_contrib]
      by_cases hok : corr_ok chars pr.1 pr.2
      · rw [if_pos hok, if_pos hok]
        simp only [lookup_appendAssoc]
        by_cases hx2 : x = pr.2
        · subst hx2
          by_cases h21 : pr.2 = pr.1
          · simp [h21, List.append_assoc]
          · simp [h21, List.append_assoc]
        · by_cases hx1 : x = pr.1
          · subst hx1
            simp [hx2, List.append_assoc]
          · simp [hx1, hx2]
      · rw [if_neg hok, if_neg hok]
        simp

theorem mem_corr_contrib {chars : String → Character} {x c : String}
    {ps : List (String × String)} :
    c ∈ corr_contrib chars x ps ↔
      ∃ pr, pr ∈ ps ∧ corr_ok chars pr.1 pr.2 = true ∧
        ((x = pr.1 ∧ c = pr.2) ∨ (x = pr.2 ∧ c = pr.1)) := by
  induction ps with
  | nil => simp [corr_contrib]
  | cons pr ps ih =>
      simp only [corr_contrib, List.mem_append, ih]
      constructor
      · rintro (hin | ⟨q, hq, hok, hcase⟩)
        · by_cases hok : corr_ok chars pr.1 pr.2
          · rw [if_pos hok] at hin
            rcases List.mem_append.mp hin with h1 | h2
            · by_cases hx1 : x = pr.1
              · rw [if_pos hx1] at h1
                exact ⟨pr, List.mem_cons_self _ _, hok,
                  Or.inl ⟨hx1, List.mem_singleton.mp h1⟩⟩
              · rw [if_neg hx1] at h1
                cases h1
            · by_cases hx2 : x = pr.2
              · rw [if_pos hx2] at h2
                exact ⟨pr, List.mem_cons_self _ _, hok,
                  Or.inr ⟨hx2, List.mem_singleton.mp h2⟩⟩
              · rw [if_neg hx2] at h2
                cases h2
          · rw [if_neg hok] at hin
            cases hin
        · exact ⟨q, List.mem_cons_of_mem _ hq, hok, hcase⟩
      · rintro ⟨q, hq, hok, hcase⟩
        rcases List.mem_cons.mp hq with rfl | hq2
        · left
          rw [if_pos hok]
          rcases hcase with ⟨hx, hc⟩ | ⟨hx, hc⟩
          · refine List.mem_append.mpr (Or.inl ?_)
            rw [if_pos hx]
            simp [hc]
          · refine List.mem_append.mpr (Or.inr ?_)
            rw [if_pos hx]
            simp [hc]
        · right
          exact ⟨q, hq2, hok, hcase⟩

theorem appendAssoc_vals_ne_nil {m : List (String × List String)} {k v : String}
    (h : ∀ q ∈ m, q.2 ≠ []) : ∀ q ∈ appendAssoc m k v, q.2 ≠ [] := by
  induction m with
  | nil =>
      intro q hq
      simp only [appendAssoc, List.mem_singleton] at hq
      rw [hq]
      simp
  | cons p m ih =>
      intro q hq
      simp only [appendAssoc] at hq
      by_cases hpk : p.1 = k
      · rw [if_pos hpk] at hq
        rcases List.mem_cons.mp hq with rfl | hq2
        · simp
        · exact h q (List.mem_cons_of_mem _ hq2)
      · rw [if_neg hpk] at hq
        rcases List.mem_cons.mp hq with heq | hq2
        · rw [heq]
          exact h p (List.mem_cons_self _ _)
        · exact ih (fun q2 hq2b => h q2 (List.mem_cons_of_mem _ hq2b)) q hq2

theorem build_corr_vals_ne_nil (chars : String → Character) (charlist : List String) :
    ∀ q ∈ build_correspondence chars charlist, q.2 ≠ [] := by
  have hgen : ∀ (ps : List (String × String)) (acc : List (String × List String)),
      (∀ q ∈ acc, q.2 ≠ []) →
      ∀ q ∈ ps.foldl (fun corr pr =>
        if corr_ok chars pr.1 pr.2 then appendAssoc (appendAssoc corr pr.1 pr.2) pr.2 pr.1
        else corr) acc, q.2 ≠ [] := by
    intro ps
    induction ps with
    | nil => intro acc h; simpa using h
    | cons pr ps ih =>
        intro acc h
        rw [List.foldl_cons]
        apply ih
        by_cases hok : corr_ok chars pr.1 pr.2
        · rw [if_pos hok]
          exact appendAssoc_vals_ne_nil (appendAssoc_vals_ne_nil h)
        · rw [if_neg hok]
          exact h
  exact hgen _ [] (by simp)

/-- Claim C8: for an unordered pair of distinct canonical names enumerated
by the cross-name loop, a mutual correspondence is recorded if and only if
neither name has two or more empty parsed fields, the genders are equal as
values, it is not the case that both titles are non-empty and differ, and
the first or last names are equal; and every name with at least one recorded
correspondent is united with its first correspondent of strictly greatest
occurrence count. -/
theorem cross_name_correspondence_spec (chars : String → Character)
    (charlist : List String) (c1 c2 : String)
    (hmem : (c1, c2) ∈ crossPairs charlist) :
    ((c2 ∈ lookupVals (build_correspondence chars charlist) c1
      ∧ c1 ∈ lookupVals (build_correspondence chars charlist) c2)
      ↔ crossPairSpec chars c1 c2 = true)
    ∧ (∀ p ∈ build_correspondence chars charlist,
        p.2 ≠ []
        ∧ (p.1, maxFreqName chars p.2)
            ∈ correspondence_unions chars (build_correspondence chars charlist)
        ∧ ∃ k, ∃ hk : k < p.2.length,
            p.2.get ⟨k, hk⟩ = maxFreqName chars p.2
            ∧ (∀ x ∈ p.2, occ_count chars x ≤ occ_count chars (maxFreqName chars p.2))
            ∧ ∀ j, ∀ hj : j < p.2.length, j < k →
                occ_count chars (p.2.get ⟨j, hj⟩) < occ_count chars (maxFreqName chars p.2)) := by
  have hlk : ∀ x, lookupVals (build_correspondence chars charlist) x
      = corr_contrib chars x (crossPairs charlist) := by
    intro x
    have h := build_corr_lookup chars (crossPairs charlist) [] x
    simpa [build_correspondence, lookupVals] using h
  constructor
  · rw [← corr_ok_eq_spec]
    constructor
    · rintro ⟨h12, h21⟩
      rw [hlk] at h12
      rcases mem_corr_contrib.mp h12 with ⟨pr, hpr, hok, hcase⟩
      rcases hcase with ⟨hx, hc⟩ | ⟨hx, hc⟩
      · rw [hx, hc]
        exact hok
      · rw [hx, hc, corr_ok_symm]
        exact hok
    · intro hok
      constructor
      · rw [hlk]
        exact mem_corr_contrib.mpr ⟨(c1, c2), hmem, hok, Or.inl ⟨rfl, rfl⟩⟩
      · rw [hlk]
        exact mem_corr_contrib.mpr ⟨(c1, c2), hmem, hok, Or.inr ⟨rfl, rfl⟩⟩
  · intro p hp
    have hne : p.2 ≠ [] := build_corr_vals_ne_nil chars charlist p hp
    refine ⟨hne, ?_, ?_⟩
    · exact List.mem_map.mpr ⟨p, hp, rfl⟩
    · rcases hcl : p.2 with - | ⟨n, ns⟩
      · exact absurd hcl hne
      · exact maxFreqName_spec chars n ns

/-- Witness for C8 on Sherlock Holmes and Mycroft Holmes, who share a last
name, agree in gender and have at most one empty parsed field each. -/
theorem cross_name_correspondence_spec_witness :
    "Mycroft Holmes" ∈ lookupVals (build_correspondence demoStore demoCharlist) "Sherlock Holmes"
    ∧ "Sherlock Holmes"
        ∈ lookupVals (build_correspondence demoStore demoCharlist) "Mycroft Holmes" := by
  have h := (cross_name_correspondence_spec demoStore demoCharlist
    "Sherlock Holmes" "Mycroft Holmes" (by decide)).1
  exact h.mpr (by decide)

/-- Witness for the amended C4 at None and at a concrete store. -/
theorem unify_occurences_state_guard_witness :
    unify_occurences [] none = Except.error state_error_msg
    ∧ (unify_occurences [] (some demoDetectedStore)).isOk = true := by
  refine ⟨(unify_occurences_state_guard [] none).1 rfl, ?_⟩
  obtain ⟨out, hout⟩ :=
    (unify_occurences_state_guard [] (some demoDetectedStore)).2 demoDetectedStore rfl
  rw [hout]
  rfl
